import Mathlib

/-!
Verification of the feed polling and reconciliation engine of the `mire`
RSS aggregator (package `reaper`, with the storage operations it uses from
package `sqlite`), as a shallow embedding in Lean.

Modelling conventions:
* Go `time.Time` is modelled as `Int` (nanoseconds); `time.Duration` likewise.
  The zero value of `time.Time` is the sentinel `zeroTime`.
* The Go map `map[string]*FeedHolder` is modelled as an association list with
  `mapLookup` / `mapInsert` / `mapRemove`; `mapInsert` overwrites the entry
  when the key is present, `mapRemove` deletes the key.
* `db.TryParseDate` (a fallible date-string parser living in the sqlite
  package) is abstracted as a parameter `tpd : String → Option Time`; every
  theorem below holds for an arbitrary such parser.
* Network fetching (`gofeed.Parser.ParseURL`) is abstracted as an explicit
  `Except String Feed` argument standing for the outcome of the call.
* Goroutine interleavings are not modelled: each operation of the reaper is
  embedded as the sequential state transformer its body performs, which is
  what the coarse channel-based lock enforces for the map mutations.
-/

namespace Mire

abbrev Time := Int

/-- `time.Time\x7b\x7d`, the Go zero time, used by the code as the sentinel
publish date when no timestamp format parses. -/
def zeroTime : Time := 0

/-- `const timeToBecomeStale = 3 * time.Hour` (reaper.go line 20), in
nanoseconds, the unit of Go durations. -/
def timeToBecomeStale : Int := 3 * 3600 * 1000000000

/-- The character class of `\s` in Go's regexp package (RE2): space, tab,
newline, form feed, carriage return. Used by `sanitizeFeedItems` through
`regexp.MustCompile` of a one-or-more-whitespace pattern. -/
def isRegexpSpace (c : Char) : Bool :=
  c = ' ' || c = '\t' || c = '\n' || c = '\x0C' || c = '\r'

/-- The whitespace predicate of Go `unicode.IsSpace`, used by
`strings.TrimSpace`: ASCII spacing characters plus the Unicode
White_Space code points. -/
def isUnicodeSpace (c : Char) : Bool :=
  c = ' ' || c = '\t' || c = '\n' || c = '\x0B' || c = '\x0C' || c = '\r' ||
  c = '\u0085' || c = '\u00A0' || c = '\u1680' ||
  ('\u2000' ≤ c && c ≤ '\u200A') ||
  c = '\u2028' || c = '\u2029' || c = '\u202F' || c = '\u205F' || c = '\u3000'

/-- Replacement of every maximal run of `\s` characters by a single space:
the effect of `whitespaceRegexp.ReplaceAllString(title, " ")` in
`sanitizeFeedItems` (reaper.go line 114).  The flag records whether the
previous character belonged to a whitespace run (whose single replacement
space has already been emitted). -/
def collapseWsFrom : Bool → List Char → List Char
  | _, [] => []
  | prevSpace, c :: cs =>
    if isRegexpSpace c then
      if prevSpace then collapseWsFrom true cs
      else ' ' :: collapseWsFrom true cs
    else
      c :: collapseWsFrom false cs

def collapseWsStr (s : String) : String :=
  ⟨collapseWsFrom false s.data⟩

/-- `strings.TrimSpace`: drop Unicode whitespace from both ends. -/
def trimSpace (s : String) : String :=
  ⟨((s.data.dropWhile isUnicodeSpace).reverse.dropWhile isUnicodeSpace).reverse⟩

/-- `strings.HasPrefix`, as a character-list comparison. -/
def strStartsWith (s pre : String) : Bool :=
  pre.data.isPrefixOf s.data

/-- The link filter of `sanitizeFeedItems` (reaper.go line 120): keep only
links that start with http or https schemes. -/
def isValidHttpLink (link : String) : Bool :=
  strStartsWith link "http://" || strStartsWith link "https://"

/-- The fields of `gofeed.Item` that the reaper reads or writes.
`publishedParsed` is `*time.Time` in Go: `none` models a nil pointer. -/
structure Item where
  title : String
  link : String
  published : String
  publishedParsed : Option Time
deriving Repr, DecidableEq

/-- The fields of `gofeed.Feed` that the reaper reads or writes. -/
structure Feed where
  feedLink : String
  items : List Item
  published : String
  publishedParsed : Option Time
deriving Repr, DecidableEq

/-- `FeedHolder` (reaper.go lines 29-32). -/
structure FeedHolder where
  feed : Feed
  lastFetched : Time
deriving Repr, DecidableEq

/-- `PostSaveRequest` (reaper.go lines 22-27). -/
structure PostSaveRequest where
  feedLink : String
  title : String
  link : String
  date : Time
deriving Repr, DecidableEq

/-- Date backfill for one item (reaper.go lines 124-133): if the parser left
`publishedParsed` nil, try `db.TryParseDate` on the raw string and fall back
to the zero-time sentinel on failure.  The result is always non-nil. -/
def backfillDate (tpd : String → Option Time) (item : Item) : Option Time :=
  match item.publishedParsed with
  | some t => some t
  | none =>
    match tpd item.published with
    | some d => some d
    | none => some zeroTime

/-- The item kept by `sanitizeFeedItems` for a surviving input item
(reaper.go lines 141-146): collapsed title, trimmed link, raw published
string, backfilled parse result. -/
def mkSanitized (tpd : String → Option Time) (item : Item) : Item :=
  { title := collapseWsStr item.title
    link := trimSpace item.link
    published := item.published
    publishedParsed := backfillDate tpd item }

/-- The loop body of `sanitizeFeedItems` (reaper.go lines 112-149), with the
`seen` set threaded explicitly.  An item is skipped when its trimmed link is
not an http(s) link, or when its link was already seen; otherwise the link is
marked seen and—when non-empty—the sanitized item is emitted. -/
def sanitizeLoop (tpd : String → Option Time) : List Item → List String → List Item
  | [], _ => []
  | item :: rest, seen =>
    let link := trimSpace item.link
    if !isValidHttpLink link then
      sanitizeLoop tpd rest seen
    else if seen.contains link then
      sanitizeLoop tpd rest seen
    else if link == "" then
      sanitizeLoop tpd rest (link :: seen)
    else
      mkSanitized tpd item :: sanitizeLoop tpd rest (link :: seen)

/-- `sanitizeFeedItems` (reaper.go lines 107-153): replace the feed's items
by the sanitized unique items. -/
def sanitizeFeedItems (tpd : String → Option Time) (feed : Feed) : Feed :=
  { feed with items := sanitizeLoop tpd feed.items [] }

/-! ### The Go map, as an association list -/

def mapLookup {α : Type} : List (String × α) → String → Option α
  | [], _ => none
  | (k, v) :: rest, url => if k = url then some v else mapLookup rest url

/-- Go map assignment `m[url] = v`: overwrite the entry when present,
append otherwise. -/
def mapInsert {α : Type} : List (String × α) → String → α → List (String × α)
  | [], url, v => [(url, v)]
  | (k, w) :: rest, url, v =>
    if k = url then (url, v) :: rest else (k, w) :: mapInsert rest url v

/-- Go `delete(m, url)`: the key is no longer present afterwards. -/
def mapRemove {α : Type} (m : List (String × α)) (url : String) : List (String × α) :=
  m.filter (fun e => !(e.1 == url))

/-! ### Reaper state and storage state -/

/-- The `feeds` map of `Reaper` (reaper.go line 37). -/
structure ReaperState where
  feeds : List (String × FeedHolder)
deriving Repr, DecidableEq

/-- One row of the sqlite `feed` table, restricted to the columns the
reaper touches (`url`, `last_refreshed`, `fetch_error`) plus the `id` key
used by `post` rows. -/
structure FeedRow where
  id : Nat
  url : String
  lastRefresh : Time
  fetchError : String
deriving Repr, DecidableEq

/-- One row of the sqlite `post` table, restricted to the inserted columns;
the table carries `UNIQUE(feed_id, url)`. -/
structure PostRow where
  feedId : Nat
  title : String
  url : String
  publishedAt : Time
deriving Repr, DecidableEq

structure DbState where
  feedRows : List FeedRow
  postRows : List PostRow
deriving Repr, DecidableEq

/-- `db.GetFeedID` (sqlite.go lines 560-574): the id of the feed row with the
given url, or 0 when no row matches. -/
def GetFeedID (db : DbState) (url : String) : Nat :=
  match db.feedRows.find? (fun row => row.url == url) with
  | some row => row.id
  | none => 0

/-- `db.UpdateFeedLastRefreshTime` (sqlite.go lines 985-992):
`UPDATE feed SET last_refreshed=? WHERE url=?`. -/
def UpdateFeedLastRefreshTime (db : DbState) (url : String) (t : Time) : DbState :=
  { db with feedRows :=
      db.feedRows.map (fun row =>
        if row.url == url then { row with lastRefresh := t } else row) }

/-- `db.SetFeedFetchError` (sqlite.go lines 587-596):
`UPDATE feed SET fetch_error=? WHERE url=?`. -/
def SetFeedFetchError (db : DbState) (url : String) (msg : String) : DbState :=
  { db with feedRows :=
      db.feedRows.map (fun row =>
        if row.url == url then { row with fetchError := msg } else row) }

/-- `db.SavePost` (sqlite.go lines 620-633): look up the feed id, then
`INSERT INTO post ... ON CONFLICT(feed_id, url) DO NOTHING` — the row is
appended unless a row with the same `(feed_id, url)` already exists, in which
case nothing happens and no error is raised. -/
def SavePost (db : DbState) (feedUrl title url : String) (publishedAt : Time) : DbState :=
  let fid := GetFeedID db feedUrl
  if db.postRows.any (fun p => p.feedId == fid && p.url == url) then
    db
  else
    { db with postRows :=
        db.postRows ++ [{ feedId := fid, title := title, url := url,
                          publishedAt := publishedAt }] }

/-- The number of `post` rows with the given `(feed_id, url)` key; the
table's `UNIQUE(feed_id, url)` constraint keeps it at most 1. -/
def postCount (db : DbState) (fid : Nat) (url : String) : Nat :=
  (db.postRows.filter (fun p => p.feedId == fid && p.url == url)).length

/-! ### Reaper operations -/

/-- `Reaper.HasFeed` (reaper.go lines 290-295). -/
def HasFeed (r : ReaperState) (url : String) : Bool :=
  (mapLookup r.feeds url).isSome

/-- `Reaper.GetFeed` (reaper.go lines 297-299): `return r.feeds[url].Feed`.
When `url` is absent the Go map access yields a nil `*FeedHolder` and the
`.Feed` selector dereferences it, a runtime panic; `none` marks that fault
outcome (there is no nil check or ok-flag in the source). -/
def GetFeed (r : ReaperState) (url : String) : Option Feed :=
  match mapLookup r.feeds url with
  | some fh => some fh.feed
  | none => none

/-- The stub feed `gofeed.Feed\x7bFeedLink: url\x7d` used at startup and by
`AddFeedStub`. -/
def stubFeed (url : String) : Feed :=
  { feedLink := url, items := [], published := "", publishedParsed := none }

/-- `Reaper.AddFeedStub` (reaper.go lines 332-343): no-op when the url is
already tracked, otherwise insert a stub holder whose timestamp
`now - timeToBecomeStale` forces the next cycle to refresh it. -/
def AddFeedStub (r : ReaperState) (now : Time) (url : String) : ReaperState :=
  if HasFeed r url then r
  else { feeds := mapInsert r.feeds url
          { feed := stubFeed url, lastFetched := now - timeToBecomeStale } }

/-- `Reaper.RemoveFeed` (reaper.go lines 345-354): no-op (with a logged
warning) when the url is not tracked, otherwise delete the entry. -/
def RemoveFeed (r : ReaperState) (url : String) : ReaperState :=
  if !HasFeed r url then r
  else { feeds := mapRemove r.feeds url }

/-- The seeding loop of `Reaper.start` (reaper.go lines 73-88): one stub
entry per stored feed url, stamped with the persisted last-refresh time
(`lastRefreshOf`, the abstraction of `db.GetFeedLastRefreshTime`). -/
def seedFeeds (urls : List String) (lastRefreshOf : String → Time) : ReaperState :=
  { feeds := urls.foldl
      (fun m url => mapInsert m url
        { feed := stubFeed url, lastFetched := lastRefreshOf url }) [] }

/-- The staleness test of `refreshAllFeeds` (reaper.go line 246):
`LastFetched.Add(timeToBecomeStale).Before(start)`, where `Time.Before` is a
strict comparison. -/
def isStale (fh : FeedHolder) (start : Time) : Bool :=
  decide (fh.lastFetched + timeToBecomeStale < start)

/-- The set of entries for which `refreshAllFeeds` (reaper.go lines 239-269)
dispatches a refresh task in a cycle that starts at time `start`. -/
def staleFeeds (r : ReaperState) (start : Time) : List (String × FeedHolder) :=
  r.feeds.filter (fun e => isStale e.2 start)

/-- `Reaper.Fetch` (reaper.go lines 370-388): on a parse error, return it to
the caller with the state untouched; on success force the feed's source url,
sanitize, and install the holder with `lastFetched = now`. -/
def Fetch (tpd : String → Option Time) (r : ReaperState) (url : String)
    (now : Time) (fetchResult : Except String Feed) : Except String ReaperState :=
  match fetchResult with
  | .error e => .error e
  | .ok feed0 =>
    let feed1 := { feed0 with feedLink := url }
    let feed := sanitizeFeedItems tpd feed1
    .ok { feeds := mapInsert r.feeds url { feed := feed, lastFetched := now } }

/-- `Reaper.handleFeedFetchFailure` (reaper.go lines 271-286), minus the
logging: record the error string in the feed's `fetch_error` column. -/
def handleFeedFetchFailure (db : DbState) (url : String) (errMsg : String) : DbState :=
  SetFeedFetchError db url errMsg

/-- Feed-level date backfill (reaper.go lines 191-198): parse the feed's own
published string when the parser left it nil; failures are ignored. -/
def backfillFeedDate (tpd : String → Option Time) (feed : Feed) : Feed :=
  match feed.publishedParsed with
  | some _ => feed
  | none =>
    match tpd feed.published with
    | some d => { feed with publishedParsed := some d }
    | none => feed

structure UpdateResult where
  reaper : ReaperState
  db : DbState
  saved : List PostSaveRequest
deriving Repr, DecidableEq

/-- Assignment through a map entry, `r.feeds[url].<field> = v`: mutate the
holder stored under `url`.  No-op when the url is absent (the Go assignment
would dereference a nil holder there; the guarded call sites ensure
presence). -/
def updateEntry (rs : ReaperState) (url : String)
    (modify : FeedHolder → FeedHolder) : ReaperState :=
  match mapLookup rs.feeds url with
  | some fh => { feeds := mapInsert rs.feeds url (modify fh) }
  | none => rs

/-- The Registry writes of the reconcile's success path (reaper.go lines
202-212 and 234): self-heal with a stub if the feed vanished from the map,
store the fresh document in the entry, and finally stamp the holder's
`LastFetched` with a second `time.Now()`. -/
def installFeed (fetchTime endTime : Time) (r1 : ReaperState) (newF : Feed) :
    ReaperState :=
  updateEntry
    (updateEntry
      (if HasFeed r1 newF.feedLink then r1
       else AddFeedStub r1 fetchTime newF.feedLink)
      newF.feedLink (fun fh2 => { fh2 with feed := newF }))
    newF.feedLink (fun fh3 => { fh3 with lastFetched := endTime })

/-- `Reaper.updateFeedAndSaveNewItemsToDb` (reaper.go lines 155-235), the
per-feed reconcile.  `f` is the holder's current feed (`fh.Feed`),
`fetchTime` the `time.Now()` taken before the fetch, `endTime` the
`time.Now()` of the final timestamp write, and `fetchResult` the outcome of
`rawFetchFeed`.  `saved` collects the `PostSaveRequest`s sent to the saver
channel, in order.  The sequential model assumes the holder passed in is the
map's entry for `f.feedLink`, which is how `refreshAllFeeds` calls it. -/
def updateFeedAndSaveNewItemsToDb (tpd : String → Option Time)
    (r : ReaperState) (db : DbState) (f : Feed)
    (fetchTime endTime : Time) (fetchResult : Except String Feed) : UpdateResult :=
  match mapLookup r.feeds f.feedLink with
  | none => ⟨r, db, []⟩
  | some fh =>
    let r1 : ReaperState :=
      { feeds := mapInsert r.feeds f.feedLink { fh with lastFetched := fetchTime } }
    let db1 := UpdateFeedLastRefreshTime db f.feedLink fetchTime
    let originalLinks := f.items.map (fun item => item.link)
    match fetchResult with
    | .error e => ⟨r1, handleFeedFetchFailure db1 f.feedLink e, []⟩
    | .ok rawF =>
      let db2 := SetFeedFetchError db1 f.feedLink ""
      let newF1 := sanitizeFeedItems tpd rawF
      let newF2 := backfillFeedDate tpd newF1
      let newF := { newF2 with feedLink := f.feedLink }
      let newItems := newF.items.filter
        (fun item => !(originalLinks.contains item.link))
      let saved := newItems.map (fun item =>
        ({ feedLink := newF.feedLink, title := item.title, link := item.link,
           date := item.publishedParsed.get! } : PostSaveRequest))
      ⟨installFeed fetchTime endTime r1 newF, db2, saved⟩

/-! ### Concrete fixtures for witnesses -/

def feedUrlX : String := "https://example.com/feed"

def itemA : Item :=
  { title := "A", link := "https://example.com/a", published := "", publishedParsed := some 1 }

def itemB : Item :=
  { title := "B", link := "https://example.com/b", published := "", publishedParsed := some 2 }

def itemC : Item :=
  { title := "C", link := "https://example.com/c", published := "", publishedParsed := some 3 }

def prevFeedX : Feed :=
  { feedLink := feedUrlX, items := [itemA, itemB], published := "", publishedParsed := none }

def freshFeedX : Feed :=
  { feedLink := feedUrlX, items := [itemB, itemC], published := "", publishedParsed := none }

def regX : ReaperState :=
  { feeds := [(feedUrlX, { feed := prevFeedX, lastFetched := 0 })] }

def dbX : DbState :=
  { feedRows := [{ id := 1, url := feedUrlX, lastRefresh := 0, fetchError := "" }],
    postRows := [] }

/-- A date parser that always fails, for concrete witnesses. -/
def noParse : String → Option Time := fun _ => none

/-- First of two items sharing a link (after trimming): its link carries
stray whitespace and its title a run of whitespace. -/
def dupItem1 : Item :=
  { title := "Hello \n\t world", link := " https://example.com/a ",
    published := "", publishedParsed := none }

/-- Second item with the same link as `dupItem1`, different title and date. -/
def dupItem2 : Item :=
  { title := "Other", link := "https://example.com/a",
    published := "", publishedParsed := some 5 }

/-- An item whose link is not an http(s) url. -/
def badItem : Item :=
  { title := "Bad", link := "//example.com/protocol-relative",
    published := "", publishedParsed := some 7 }

def dupFeed : Feed :=
  { feedLink := feedUrlX, items := [dupItem1, dupItem2, badItem],
    published := "", publishedParsed := none }

/-- The save request that reconciling `prevFeedX` against `freshFeedX`
produces for the new item C. -/
def reqC : PostSaveRequest :=
  { feedLink := feedUrlX, title := "C", link := "https://example.com/c", date := 3 }

/-- The key/document coherence invariant of the Registry: every entry's
stored feed carries the map key as its source url. -/
abbrev RegistryInv (r : ReaperState) : Prop :=
  ∀ e ∈ r.feeds, e.2.feed.feedLink = e.1

/-! ### Association-list map lemmas -/

theorem mapLookup_mapInsert_self {α : Type} (m : List (String × α)) (url : String) (v : α) :
    mapLookup (mapInsert m url v) url = some v := by
  induction m with
  | nil => simp [mapInsert, mapLookup]
  | cons e rest ih =>
    obtain ⟨k, w⟩ := e
    by_cases h : k = url
    · simp [mapInsert, mapLookup, h]
    · simp [mapInsert, mapLookup, h, ih]

theorem mapLookup_mapRemove_self {α : Type} (m : List (String × α)) (url : String) :
    mapLookup (mapRemove m url) url = none := by
  induction m with
  | nil => rfl
  | cons e rest ih =>
    obtain ⟨k, w⟩ := e
    by_cases h : k = url
    · subst h
      simpa [mapRemove, List.filter_cons] using ih
    · have hb : (k == url) = false := by simp [h]
      simpa [mapRemove, List.filter_cons, hb, mapLookup, h] using ih

/-! ### Claim theorems -/

/-- C1 counterexample: the claim calls an entry with
`lastFetchAttempt = now - TTL` due for refresh (`now ≥ lastFetchAttempt + TTL`
holds for it), but the scheduler's strict `Before` comparison dispatches no
refresh for it: with `now = timeToBecomeStale` and `lastFetched = 0` the cycle
dispatches nothing. -/
theorem staleness_boundary_cex :
    ((0 : Int) + timeToBecomeStale ≤ timeToBecomeStale) ∧
    staleFeeds { feeds := [(feedUrlX, { feed := stubFeed feedUrlX, lastFetched := 0 })] }
        timeToBecomeStale = [] := by
  constructor
  · simp
  · simp [staleFeeds, isStale]

/-- C1 (amended): the scheduler dispatches a refresh for an entry in the cycle
starting at `start` iff `lastFetchAttempt + TTL < start` strictly
(TTL = 3 hours); the boundary entry `lastFetchAttempt = start - TTL` is not
due, `start - TTL - 1ns` is due, and `start - TTL + 1s` is not due. -/
theorem staleness_strict (r : ReaperState) (url : String) (fh : FeedHolder) (start : Time) :
    ((url, fh) ∈ staleFeeds r start ↔
      (url, fh) ∈ r.feeds ∧ fh.lastFetched + timeToBecomeStale < start)
    ∧ isStale { fh with lastFetched := start - timeToBecomeStale } start = false
    ∧ isStale { fh with lastFetched := start - timeToBecomeStale - 1 } start = true
    ∧ isStale { fh with lastFetched := start - timeToBecomeStale + 1000000000 } start = false := by
  refine ⟨?_, ?_, ?_, ?_⟩
  · simp [staleFeeds, isStale, List.mem_filter]
  · simp [isStale]
  · simp [isStale, timeToBecomeStale]
    linarith
  · simp [isStale, timeToBecomeStale]
    linarith

/-- C6: `AddFeedStub` then `HasFeed` is true; `RemoveFeed` then `HasFeed` is
false; `AddFeedStub` on a present url changes nothing (in particular neither
`lastFetchAttempt` nor the document); `RemoveFeed` on an absent url changes
nothing. -/
theorem registry_crud (r : ReaperState) (url : String) (now : Time) :
    HasFeed (AddFeedStub r now url) url = true
    ∧ HasFeed (RemoveFeed r url) url = false
    ∧ (HasFeed r url = true → AddFeedStub r now url = r)
    ∧ (HasFeed r url = false → RemoveFeed r url = r) := by
  refine ⟨?_, ?_, ?_, ?_⟩
  · by_cases h : HasFeed r url = true
    · rw [AddFeedStub, if_pos h]
      exact h
    · rw [AddFeedStub, if_neg h]
      simp [HasFeed, mapLookup_mapInsert_self]
  · by_cases h : HasFeed r url = true
    · rw [RemoveFeed, if_neg (by simp [h])]
      simp [HasFeed, mapLookup_mapRemove_self]
    · have hf : HasFeed r url = false := by simpa using h
      rw [RemoveFeed, if_pos (by simp [hf])]
      exact hf
  · intro h
    rw [AddFeedStub, if_pos h]
  · intro h
    rw [RemoveFeed, if_pos (by simp [h])]

/-- C6 witness: the conditional parts of `registry_crud` at concrete inputs:
re-adding the tracked feed of `regX` is a no-op, removing an untracked url is
a no-op. -/
theorem registry_crud_witness :
    (HasFeed regX feedUrlX = true ∧ AddFeedStub regX 5 feedUrlX = regX)
    ∧ (HasFeed regX "https://other.example/feed" = false
        ∧ RemoveFeed regX "https://other.example/feed" = regX) :=
  ⟨⟨by decide, (registry_crud regX feedUrlX 5).2.2.1 (by decide)⟩,
   ⟨by decide, (registry_crud regX "https://other.example/feed" 5).2.2.2 (by decide)⟩⟩

/-- C7: `GetFeed` on an absent url does not return a graceful not-found
result: `return r.feeds[url].Feed` dereferences the nil `*FeedHolder` the map
access produced, a runtime panic (modelled by `none`); its caller
(site.go line 987) checks the result against nil, expecting a non-faulting
not-found answer. -/
theorem getFeed_absent_faults :
    GetFeed { feeds := [] } "https://example.com/feed" = none := rfl

/-- C8: `SavePost` is idempotent: assuming the `UNIQUE(feed_id, url)`
constraint held before (at most one row per pair), saving the same
(feed, title, link, time) twice yields the same state as saving it once, the
second call is a silent no-op, and exactly one row for the (feed, link) pair
is stored. -/
theorem savePost_idempotent (db : DbState) (feedUrl title url : String) (t : Time)
    (huniq : postCount db (GetFeedID db feedUrl) url ≤ 1) :
    SavePost (SavePost db feedUrl title url t) feedUrl title url t
      = SavePost db feedUrl title url t
    ∧ postCount (SavePost db feedUrl title url t) (GetFeedID db feedUrl) url = 1 := by
  by_cases h : db.postRows.any
      (fun p => p.feedId == GetFeedID db feedUrl && p.url == url) = true
  · have h1 : SavePost db feedUrl title url t = db := by
      simp only [SavePost, h, if_true]
    have hcount : 1 ≤ postCount db (GetFeedID db feedUrl) url := by
      rw [List.any_eq_true] at h
      obtain ⟨p, hp, hpp⟩ := h
      have hmem : p ∈ db.postRows.filter
          (fun p => p.feedId == GetFeedID db feedUrl && p.url == url) :=
        List.mem_filter.mpr ⟨hp, hpp⟩
      have := List.length_pos.mpr (List.ne_nil_of_mem hmem)
      simpa [postCount] using this
    refine ⟨?_, ?_⟩
    · rw [h1]
      exact h1
    · rw [h1]
      omega
  · have h0 : postCount db (GetFeedID db feedUrl) url = 0 := by
      have hfalse : db.postRows.any
          (fun p => p.feedId == GetFeedID db feedUrl && p.url == url) = false := by
        simpa using h
      rw [List.any_eq_false] at hfalse
      simp only [postCount, List.length_eq_zero, List.filter_eq_nil_iff]
      exact hfalse
    have h1 : SavePost db feedUrl title url t
        = { db with postRows := db.postRows ++
            [{ feedId := GetFeedID db feedUrl, title := title, url := url,
               publishedAt := t }] } := by
      simp only [SavePost, h, if_false, Bool.false_eq_true, ite_false]
    have hfid : GetFeedID (SavePost db feedUrl title url t) feedUrl
        = GetFeedID db feedUrl := by
      rw [h1]
      rfl
    have hany2 : (SavePost db feedUrl title url t).postRows.any
        (fun p => p.feedId == GetFeedID db feedUrl && p.url == url) = true := by
      rw [h1]
      simp
    refine ⟨?_, ?_⟩
    · conv_lhs => rw [SavePost]
      rw [hfid, hany2, if_pos rfl]
    · rw [h1]
      simp only [postCount, List.filter_append]
      rw [show (db.postRows.filter
          (fun p => p.feedId == GetFeedID db feedUrl && p.url == url)) = [] from ?_]
      · simp
      · have := h0
        simpa [postCount, List.length_eq_zero] using this

/-- C8 witness: saving the post for item A of `dbX` twice stores exactly one
row and the second call changes nothing. -/
theorem savePost_idempotent_witness :
    postCount dbX (GetFeedID dbX feedUrlX) "https://example.com/a" ≤ 1
    ∧ (SavePost (SavePost dbX feedUrlX "A" "https://example.com/a" 1)
          feedUrlX "A" "https://example.com/a" 1
        = SavePost dbX feedUrlX "A" "https://example.com/a" 1
      ∧ postCount (SavePost dbX feedUrlX "A" "https://example.com/a" 1)
          (GetFeedID dbX feedUrlX) "https://example.com/a" = 1) :=
  ⟨by decide,
   savePost_idempotent dbX feedUrlX "A" "https://example.com/a" 1 (by decide)⟩

/-! ### Sanitizer lemmas -/

theorem isValidHttpLink_ne_empty {l : String} (h : isValidHttpLink l = true) :
    l ≠ "" := by
  intro he
  subst he
  exact absurd h (by decide)

theorem backfillDate_isSome (tpd : String → Option Time) (item : Item) :
    (backfillDate tpd item).isSome = true := by
  cases hp : item.publishedParsed with
  | some t => simp [backfillDate, hp]
  | none =>
    cases ht : tpd item.published with
    | some d => simp [backfillDate, hp, ht]
    | none => simp [backfillDate, hp, ht]

/-- Soundness of the sanitize loop: every emitted item has a link not yet
seen, a valid http(s) link, a non-nil parsed date, and is the sanitized form
of the first input item carrying that (trimmed) link. -/
theorem sanitizeLoop_sound (tpd : String → Option Time) :
    ∀ (items : List Item) (seen : List String) (o : Item),
      o ∈ sanitizeLoop tpd items seen →
      seen.contains o.link = false
      ∧ isValidHttpLink o.link = true
      ∧ ∃ i, items.find? (fun x => trimSpace x.link == o.link) = some i
          ∧ o = mkSanitized tpd i := by
  intro items
  induction items with
  | nil =>
    intro seen o ho
    simp [sanitizeLoop] at ho
  | cons item rest ih =>
    intro seen o ho
    by_cases hv : isValidHttpLink (trimSpace item.link) = true
    · by_cases hs : seen.contains (trimSpace item.link) = true
      · rw [sanitizeLoop] at ho
        simp only [hv, hs, Bool.not_true, Bool.false_eq_true, if_false, if_true] at ho
        obtain ⟨h1, h2, i, hfind, heq⟩ := ih seen o ho
        have hne : (trimSpace item.link == o.link) = false := by
          by_contra hb
          have hb2 : trimSpace item.link = o.link := by
            have := Bool.of_not_eq_false hb
            exact beq_iff_eq.mp this
          rw [hb2] at hs
          rw [hs] at h1
          simp at h1
        refine ⟨h1, h2, i, ?_, heq⟩
        rw [List.find?_cons, hne]
        exact hfind
      · have hemp : (trimSpace item.link == "") = false := by
          by_contra hb
          have hb2 : trimSpace item.link = "" := by
            have := Bool.of_not_eq_false hb
            exact beq_iff_eq.mp this
          rw [hb2] at hv
          exact absurd hv (by decide)
        rw [sanitizeLoop] at ho
        simp only [hv, Bool.not_eq_true] at hs
        simp only [hv, hs, hemp, Bool.not_true, Bool.false_eq_true, if_false,
          List.mem_cons] at ho
        rcases ho with ho | ho
        · subst ho
          refine ⟨?_, ?_, item, ?_, rfl⟩
          · simpa [mkSanitized] using hs
          · simpa [mkSanitized] using hv
          · rw [List.find?_cons]
            simp [mkSanitized]
        · obtain ⟨h1, h2, i, hfind, heq⟩ := ih (trimSpace item.link :: seen) o ho
          simp only [List.contains_cons, Bool.or_eq_false_iff] at h1
          obtain ⟨hne0, h1'⟩ := h1
          have hne : (trimSpace item.link == o.link) = false := by
            rcases hbe : o.link == trimSpace item.link with _ | _
            · rcases hbe2 : trimSpace item.link == o.link with _ | _
              · rfl
              · have := (beq_iff_eq.mp hbe2).symm
                rw [← beq_iff_eq] at this
                rw [this] at hbe
                cases hbe
            · rw [hbe] at hne0
              cases hne0
          refine ⟨h1', h2, i, ?_, heq⟩
          rw [List.find?_cons, hne]
          exact hfind
    · rw [sanitizeLoop] at ho
      simp only [Bool.not_eq_true] at hv
      simp only [hv, Bool.not_false, if_true] at ho
      obtain ⟨h1, h2, i, hfind, heq⟩ := ih seen o ho
      have hne : (trimSpace item.link == o.link) = false := by
        by_contra hb
        have hb2 : trimSpace item.link = o.link := by
          have := Bool.of_not_eq_false hb
          exact beq_iff_eq.mp this
        rw [hb2] at hv
        rw [hv] at h2
        simp at h2
      refine ⟨h1, h2, i, ?_, heq⟩
      rw [List.find?_cons, hne]
      exact hfind

/-- The links of the sanitize loop's output are pairwise distinct. -/
theorem sanitizeLoop_nodup (tpd : String → Option Time) :
    ∀ (items : List Item) (seen : List String),
      ((sanitizeLoop tpd items seen).map (fun o => o.link)).Nodup := by
  intro items
  induction items with
  | nil =>
    intro seen
    simp [sanitizeLoop]
  | cons item rest ih =>
    intro seen
    rw [sanitizeLoop]
    by_cases hv : isValidHttpLink (trimSpace item.link) = true
    · by_cases hs : seen.contains (trimSpace item.link) = true
      · simp only [hv, hs, Bool.not_true, Bool.false_eq_true, if_false, if_true]
        exact ih seen
      · have hemp : (trimSpace item.link == "") = false := by
          by_contra hb
          have hb2 : trimSpace item.link = "" := by
            have := Bool.of_not_eq_false hb
            exact beq_iff_eq.mp this
          rw [hb2] at hv
          exact absurd hv (by decide)
        simp only [hv, Bool.not_eq_true] at hs
        simp only [hv, hs, hemp, Bool.not_true, Bool.false_eq_true, if_false,
          List.map_cons]
        rw [List.nodup_cons]
        refine ⟨?_, ih (trimSpace item.link :: seen)⟩
        intro hmem
        rw [List.mem_map] at hmem
        obtain ⟨o, ho, holink⟩ := hmem
        obtain ⟨h1, _, _⟩ := sanitizeLoop_sound tpd rest (trimSpace item.link :: seen) o ho
        rw [holink] at h1
        simp only [mkSanitized, List.contains_cons] at h1
        simp at h1
    · simp only [Bool.not_eq_true] at hv
      simp only [hv, Bool.not_false, if_true]
      exact ih seen

/-! ### Characterization of whitespace collapsing and trimming -/

theorem dropWhile_head_false (p : Char → Bool) :
    ∀ (l : List Char) (c : Char) (rest : List Char),
      l.dropWhile p = c :: rest → p c = false := by
  intro l
  induction l with
  | nil =>
    intro c rest h
    exact absurd h (by simp)
  | cons a t ih =>
    intro c rest h
    rw [List.dropWhile_cons] at h
    split at h
    · exact ih c rest h
    · next hpa =>
      injection h with h1 h2
      subst h1
      simpa using hpa

theorem filter_dropWhile_not (p : Char → Bool) :
    ∀ l : List Char,
      (l.dropWhile p).filter (fun c => !p c) = l.filter (fun c => !p c) := by
  intro l
  induction l with
  | nil => rfl
  | cons a t ih =>
    rw [List.dropWhile_cons]
    split
    · next hpa =>
      rw [ih, List.filter_cons]
      simp [hpa]
    · rfl

/-- The non-whitespace characters survive collapsing, in order. -/
theorem collapseWs_filter :
    ∀ (l : List Char) (b : Bool),
      (collapseWsFrom b l).filter (fun c => !isRegexpSpace c)
        = l.filter (fun c => !isRegexpSpace c) := by
  intro l
  induction l with
  | nil => intro b; rfl
  | cons c cs ih =>
    intro b
    rw [collapseWsFrom]
    by_cases hc : isRegexpSpace c = true
    · have hsp : isRegexpSpace ' ' = true := by decide
      rw [if_pos hc]
      cases b with
      | true =>
        rw [if_pos rfl, List.filter_cons]
        simp only [hc, Bool.not_true, Bool.false_eq_true, if_false]
        exact ih true
      | false =>
        rw [if_neg (by simp), List.filter_cons, List.filter_cons]
        simp only [hc, hsp, Bool.not_true, Bool.false_eq_true, if_false]
        exact ih true
    · rw [if_neg hc, List.filter_cons, List.filter_cons]
      rw [ih false]

/-- A collapsed list continuing inside a whitespace run starts with a
non-whitespace character. -/
theorem collapseWs_true_head :
    ∀ (l : List Char) (c : Char) (rest : List Char),
      collapseWsFrom true l = c :: rest → isRegexpSpace c = false := by
  intro l
  induction l with
  | nil =>
    intro c rest h
    exact absurd h (by simp [collapseWsFrom])
  | cons a t ih =>
    intro c rest h
    rw [collapseWsFrom] at h
    by_cases ha : isRegexpSpace a = true
    · rw [if_pos ha, if_pos rfl] at h
      exact ih c rest h
    · rw [if_neg ha] at h
      injection h with h1 h2
      subst h1
      simpa using ha

/-- No two adjacent characters of a collapsed list are both whitespace. -/
theorem collapseWs_chain :
    ∀ (l : List Char) (b : Bool),
      List.Chain' (fun a b => isRegexpSpace a = false ∨ isRegexpSpace b = false)
        (collapseWsFrom b l) := by
  intro l
  induction l with
  | nil => intro b; exact List.chain'_nil
  | cons c cs ih =>
    intro b
    rw [collapseWsFrom]
    by_cases hc : isRegexpSpace c = true
    · rw [if_pos hc]
      cases b with
      | true => exact ih true
      | false =>
        rw [if_neg (by simp)]
        rw [List.chain'_cons']
        refine ⟨?_, ih true⟩
        intro x hx
        cases hcoll : collapseWsFrom true cs with
        | nil => rw [hcoll] at hx; simp at hx
        | cons y ys =>
          rw [hcoll] at hx
          simp only [List.head?_cons, Option.mem_def, Option.some.injEq] at hx
          subst hx
          exact Or.inr (collapseWs_true_head cs y ys hcoll)
    · rw [if_neg hc]
      rw [List.chain'_cons']
      refine ⟨?_, ih false⟩
      intro x _
      exact Or.inl (by simpa using hc)

/-- Every whitespace character of a collapsed list is the plain space. -/
theorem collapseWs_space_char :
    ∀ (l : List Char) (b : Bool), ∀ c ∈ collapseWsFrom b l,
      isRegexpSpace c = true → c = ' ' := by
  intro l
  induction l with
  | nil =>
    intro b c hc
    simp [collapseWsFrom] at hc
  | cons a t ih =>
    intro b x hx hsp
    rw [collapseWsFrom] at hx
    by_cases ha : isRegexpSpace a = true
    · rw [if_pos ha] at hx
      cases b with
      | true => exact ih true x hx hsp
      | false =>
        rw [if_neg (by simp)] at hx
        rw [List.mem_cons] at hx
        rcases hx with hx | hx
        · exact hx
        · exact ih true x hx hsp
    · rw [if_neg ha, List.mem_cons] at hx
      rcases hx with hx | hx
      · subst hx
        exact absurd hsp (by simpa using ha)
      · exact ih false x hx hsp

theorem mem_takeWhile_space (p : Char → Bool) :
    ∀ l : List Char, ∀ c ∈ l.takeWhile p, p c = true := by
  intro l
  induction l with
  | nil => intro c hc; simp at hc
  | cons a t ih =>
    intro c hc
    rw [List.takeWhile_cons] at hc
    split at hc
    · next hpa =>
      rw [List.mem_cons] at hc
      rcases hc with hc | hc
      · subst hc; exact hpa
      · exact ih c hc
    · simp at hc

/-- `strings.TrimSpace` decomposition: the input splits into a whitespace
prefix, the trimmed core (whose first and last characters are not
whitespace), and a whitespace suffix. -/
theorem trimSpace_spec (s : String) :
    ∃ pre post : List Char,
      s.data = pre ++ (trimSpace s).data ++ post
      ∧ (∀ c ∈ pre, isUnicodeSpace c = true)
      ∧ (∀ c ∈ post, isUnicodeSpace c = true)
      ∧ (∀ c rest, (trimSpace s).data = c :: rest → isUnicodeSpace c = false)
      ∧ (∀ c, (trimSpace s).data.getLast? = some c → isUnicodeSpace c = false) := by
  refine ⟨s.data.takeWhile isUnicodeSpace,
    ((s.data.dropWhile isUnicodeSpace).reverse.takeWhile isUnicodeSpace).reverse,
    ?_, ?_, ?_, ?_, ?_⟩
  · have h2 : (s.data.dropWhile isUnicodeSpace).reverse.takeWhile isUnicodeSpace
          ++ (s.data.dropWhile isUnicodeSpace).reverse.dropWhile isUnicodeSpace
        = (s.data.dropWhile isUnicodeSpace).reverse :=
      List.takeWhile_append_dropWhile _ _
    have h3 : s.data.dropWhile isUnicodeSpace
        = (trimSpace s).data
          ++ ((s.data.dropWhile isUnicodeSpace).reverse.takeWhile isUnicodeSpace).reverse := by
      have h4 := congrArg List.reverse h2
      rw [List.reverse_append, List.reverse_reverse] at h4
      exact h4.symm
    conv_lhs => rw [← List.takeWhile_append_dropWhile isUnicodeSpace s.data, h3]
    exact (List.append_assoc _ _ _).symm
  · exact mem_takeWhile_space isUnicodeSpace s.data
  · intro c hc
    rw [List.mem_reverse] at hc
    exact mem_takeWhile_space isUnicodeSpace _ c hc
  · intro c rest h
    have h2 : (s.data.dropWhile isUnicodeSpace).reverse.takeWhile isUnicodeSpace
          ++ (s.data.dropWhile isUnicodeSpace).reverse.dropWhile isUnicodeSpace
        = (s.data.dropWhile isUnicodeSpace).reverse :=
      List.takeWhile_append_dropWhile _ _
    have h3 : s.data.dropWhile isUnicodeSpace
        = (trimSpace s).data
          ++ ((s.data.dropWhile isUnicodeSpace).reverse.takeWhile isUnicodeSpace).reverse := by
      have h4 := congrArg List.reverse h2
      rw [List.reverse_append, List.reverse_reverse] at h4
      exact h4.symm
    rw [h] at h3
    exact dropWhile_head_false isUnicodeSpace s.data c _ h3
  · intro c hc
    have hrev : (trimSpace s).data.getLast?
        = ((s.data.dropWhile isUnicodeSpace).reverse.dropWhile isUnicodeSpace).head? := by
      rw [trimSpace]
      exact List.getLast?_reverse _
    rw [hrev] at hc
    cases he : (s.data.dropWhile isUnicodeSpace).reverse.dropWhile isUnicodeSpace with
    | nil => rw [he] at hc; simp at hc
    | cons x xs =>
      rw [he] at hc
      simp only [List.head?_cons, Option.some.injEq] at hc
      subst hc
      exact dropWhile_head_false isUnicodeSpace _ x xs he

theorem backfillFeedDate_items (tpd : String → Option Time) (feed : Feed) :
    (backfillFeedDate tpd feed).items = feed.items := by
  cases hp : feed.publishedParsed with
  | some t => rw [backfillFeedDate, hp]
  | none =>
    cases ht : tpd feed.published with
    | some d => rw [backfillFeedDate, hp, ht]
    | none => rw [backfillFeedDate, hp, ht]

/-- C4: the Sanitizer's output has pairwise distinct links, never an empty
link, and each output item is the sanitized form of the first input item
carrying its (trimmed) link. -/
theorem sanitize_dedup (tpd : String → Option Time) (f : Feed) :
    ((sanitizeFeedItems tpd f).items.map (fun o => o.link)).Nodup
    ∧ ∀ o ∈ (sanitizeFeedItems tpd f).items,
        o.link ≠ ""
        ∧ ∃ i, f.items.find? (fun x => trimSpace x.link == o.link) = some i
            ∧ o = mkSanitized tpd i := by
  constructor
  · exact sanitizeLoop_nodup tpd f.items []
  · intro o ho
    obtain ⟨h1, h2, i, hfind, heq⟩ := sanitizeLoop_sound tpd f.items [] o ho
    exact ⟨isValidHttpLink_ne_empty h2, i, hfind, heq⟩

/-- C4 witness: on `dupFeed`, whose first two items share a link, the output
links are distinct and the surviving item for that link is the sanitized
first occurrence `dupItem1`. -/
theorem sanitize_dedup_witness :
    mkSanitized noParse dupItem1 ∈ (sanitizeFeedItems noParse dupFeed).items
    ∧ ((mkSanitized noParse dupItem1).link ≠ ""
        ∧ ∃ i, dupFeed.items.find?
            (fun x => trimSpace x.link == (mkSanitized noParse dupItem1).link) = some i
            ∧ mkSanitized noParse dupItem1 = mkSanitized noParse i) :=
  ⟨by decide,
   (sanitize_dedup noParse dupFeed).2 (mkSanitized noParse dupItem1) (by decide)⟩

/-- C5: every output item of the Sanitizer has a whitespace-collapsed title,
a trimmed link, and an http(s) link; inputs with a non-http(s) trimmed link
contribute no output; `collapseWsStr` keeps non-whitespace characters, leaves
no adjacent whitespace pair, and writes every whitespace as a plain space;
`trimSpace` splits off exactly a whitespace prefix and suffix. -/
theorem sanitize_normalization (tpd : String → Option Time) (f : Feed) :
    (∀ o ∈ (sanitizeFeedItems tpd f).items,
       (∃ i ∈ f.items, o.title = collapseWsStr i.title ∧ o.link = trimSpace i.link)
       ∧ isValidHttpLink o.link = true)
    ∧ (∀ i ∈ f.items, isValidHttpLink (trimSpace i.link) = false →
        ∀ o ∈ (sanitizeFeedItems tpd f).items, o.link ≠ trimSpace i.link)
    ∧ (∀ s : String,
        (collapseWsStr s).data.filter (fun c => !isRegexpSpace c)
          = s.data.filter (fun c => !isRegexpSpace c)
        ∧ List.Chain' (fun a b => isRegexpSpace a = false ∨ isRegexpSpace b = false)
            (collapseWsStr s).data
        ∧ (∀ c ∈ (collapseWsStr s).data, isRegexpSpace c = true → c = ' '))
    ∧ (∀ s : String, ∃ pre post : List Char,
        s.data = pre ++ (trimSpace s).data ++ post
        ∧ (∀ c ∈ pre, isUnicodeSpace c = true)
        ∧ (∀ c ∈ post, isUnicodeSpace c = true)
        ∧ (∀ c rest, (trimSpace s).data = c :: rest → isUnicodeSpace c = false)
        ∧ (∀ c, (trimSpace s).data.getLast? = some c → isUnicodeSpace c = false)) := by
  refine ⟨?_, ?_, ?_, ?_⟩
  · intro o ho
    obtain ⟨h1, h2, i, hfind, heq⟩ := sanitizeLoop_sound tpd f.items [] o ho
    refine ⟨⟨i, List.mem_of_find?_eq_some hfind, ?_, ?_⟩, h2⟩
    · rw [heq]
      rfl
    · rw [heq]
      rfl
  · intro i hi hbad o ho heq
    obtain ⟨_, h2, _⟩ := sanitizeLoop_sound tpd f.items [] o ho
    rw [heq] at h2
    rw [h2] at hbad
    simp at hbad
  · intro s
    exact ⟨collapseWs_filter s.data false, collapseWs_chain s.data false,
      collapseWs_space_char s.data false⟩
  · intro s
    exact trimSpace_spec s

/-- C5 witness: `sanitize_normalization` instantiated on `dupFeed`: the
survivor of the duplicated link is the normalized first occurrence, and the
protocol-relative `badItem` contributes no output. -/
theorem sanitize_normalization_witness :
    (mkSanitized noParse dupItem1 ∈ (sanitizeFeedItems noParse dupFeed).items
     ∧ ((∃ i ∈ dupFeed.items,
           (mkSanitized noParse dupItem1).title = collapseWsStr i.title
           ∧ (mkSanitized noParse dupItem1).link = trimSpace i.link)
        ∧ isValidHttpLink (mkSanitized noParse dupItem1).link = true))
    ∧ (isValidHttpLink (trimSpace badItem.link) = false
       ∧ (mkSanitized noParse dupItem1).link ≠ trimSpace badItem.link) := by
  refine ⟨⟨by decide, (sanitize_normalization noParse dupFeed).1 _ (by decide)⟩,
    by decide, ?_⟩
  exact (sanitize_normalization noParse dupFeed).2.1 badItem (by decide) (by decide)
    (mkSanitized noParse dupItem1) (by decide)

/-! ### Reconcile lemmas -/

/-- `updateFeedAndSaveNewItemsToDb` on an untracked feed does nothing. -/
theorem updateFeed_untracked (tpd : String → Option Time) (r : ReaperState)
    (db : DbState) (f : Feed) (ft et : Time) (res : Except String Feed)
    (hmem : mapLookup r.feeds f.feedLink = none) :
    updateFeedAndSaveNewItemsToDb tpd r db f ft et res = ⟨r, db, []⟩ := by
  unfold updateFeedAndSaveNewItemsToDb
  rw [hmem]

/-- The save requests of a successful reconcile: one per sanitized fresh item
whose link is not among the previous document's links, in order. -/
theorem updateFeed_ok_saved (tpd : String → Option Time) (r : ReaperState)
    (db : DbState) (f : Feed) (ft et : Time) (fresh : Feed) (fh : FeedHolder)
    (hmem : mapLookup r.feeds f.feedLink = some fh) :
    (updateFeedAndSaveNewItemsToDb tpd r db f ft et (.ok fresh)).saved
      = ((sanitizeFeedItems tpd fresh).items.filter
          (fun item => !((f.items.map (fun i => i.link)).contains item.link))).map
          (fun item =>
            ({ feedLink := f.feedLink, title := item.title, link := item.link,
               date := item.publishedParsed.get! } : PostSaveRequest)) := by
  unfold updateFeedAndSaveNewItemsToDb
  rw [hmem]
  simp only
  rw [← backfillFeedDate_items tpd (sanitizeFeedItems tpd fresh)]

/-- The storage state of a successful reconcile: last-refresh stamped with
the fetch start time, fetch error cleared. -/
theorem updateFeed_ok_db (tpd : String → Option Time) (r : ReaperState)
    (db : DbState) (f : Feed) (ft et : Time) (fresh : Feed) (fh : FeedHolder)
    (hmem : mapLookup r.feeds f.feedLink = some fh) :
    (updateFeedAndSaveNewItemsToDb tpd r db f ft et (.ok fresh)).db
      = SetFeedFetchError (UpdateFeedLastRefreshTime db f.feedLink ft) f.feedLink "" := by
  unfold updateFeedAndSaveNewItemsToDb
  rw [hmem]

/-- A failed reconcile in full: no save requests, the entry keeps its
document with only the timestamp advanced, the feed row records the error
and the fetch time, posts untouched. -/
theorem updateFeed_err (tpd : String → Option Time) (r : ReaperState)
    (db : DbState) (f : Feed) (ft et : Time) (e : String) (fh : FeedHolder)
    (hmem : mapLookup r.feeds f.feedLink = some fh) :
    updateFeedAndSaveNewItemsToDb tpd r db f ft et (.error e)
      = ⟨{ feeds := mapInsert r.feeds f.feedLink { fh with lastFetched := ft } },
         handleFeedFetchFailure (UpdateFeedLastRefreshTime db f.feedLink ft) f.feedLink e,
         []⟩ := by
  unfold updateFeedAndSaveNewItemsToDb
  rw [hmem]

/-- C9: every item retained by the Sanitizer has a non-nil parsed publish
time (the zero-time sentinel substitutes for unparseable dates), so the
dereference `*newItem.PublishedParsed` in the reconcile's save loop always
reads an actual value: each enqueued request's date is the `some`-value of a
sanitized item's parse result. -/
theorem sanitize_dates_nonnull (tpd : String → Option Time) (f : Feed) :
    (∀ o ∈ (sanitizeFeedItems tpd f).items, o.publishedParsed.isSome = true)
    ∧ ∀ (r : ReaperState) (db : DbState) (prev : Feed) (ft et : Time),
        ∀ q ∈ (updateFeedAndSaveNewItemsToDb tpd r db prev ft et (.ok f)).saved,
          ∃ o ∈ (sanitizeFeedItems tpd f).items, o.publishedParsed = some q.date := by
  have hsome : ∀ o ∈ (sanitizeFeedItems tpd f).items, o.publishedParsed.isSome = true := by
    intro o ho
    obtain ⟨_, _, i, _, heq⟩ := sanitizeLoop_sound tpd f.items [] o ho
    rw [heq]
    exact backfillDate_isSome tpd i
  refine ⟨hsome, ?_⟩
  intro r db prev ft et q hq
  cases hmem : mapLookup r.feeds prev.feedLink with
  | none =>
    rw [updateFeed_untracked tpd r db prev ft et (.ok f) hmem] at hq
    simp at hq
  | some fh =>
    rw [updateFeed_ok_saved tpd r db prev ft et f fh hmem] at hq
    rw [List.mem_map] at hq
    obtain ⟨o, ho, hqo⟩ := hq
    have homem : o ∈ (sanitizeFeedItems tpd f).items := List.mem_of_mem_filter ho
    refine ⟨o, homem, ?_⟩
    have hs := hsome o homem
    cases hpp : o.publishedParsed with
    | none => rw [hpp] at hs; simp at hs
    | some t =>
      rw [← hqo]
      simp only
      rw [hpp]
      rfl

/-- C9 witness: the single request produced by reconciling `regX` against
`freshFeedX` carries the parse result of the sanitized item C. -/
theorem sanitize_dates_nonnull_witness :
    (mkSanitized noParse dupItem1 ∈ (sanitizeFeedItems noParse dupFeed).items
      ∧ (mkSanitized noParse dupItem1).publishedParsed.isSome = true)
    ∧ (reqC ∈ (updateFeedAndSaveNewItemsToDb noParse regX dbX prevFeedX 10 11
              (.ok freshFeedX)).saved
      ∧ ∃ o ∈ (sanitizeFeedItems noParse freshFeedX).items,
          o.publishedParsed = some reqC.date) := by
  refine ⟨⟨by decide, (sanitize_dates_nonnull noParse dupFeed).1 _ (by decide)⟩,
    by decide, ?_⟩
  exact (sanitize_dates_nonnull noParse freshFeedX).2 regX dbX prevFeedX 10 11 _
    (by decide)

/-- Counting items by link through a link-predicate filter: with pairwise
distinct links, a link contributes one item when present and passing, zero
otherwise. -/
theorem count_links_filter (l : String) (q : String → Bool) :
    ∀ xs : List Item, (xs.map (fun i => i.link)).Nodup →
      ((xs.filter (fun i => q i.link)).filter (fun i => i.link == l)).length
        = if l ∈ xs.map (fun i => i.link) ∧ q l = true then 1 else 0 := by
  intro xs
  induction xs with
  | nil =>
    intro _
    simp
  | cons x rest ih =>
    intro hnd
    rw [List.map_cons, List.nodup_cons] at hnd
    obtain ⟨hx, hnd2⟩ := hnd
    rw [List.filter_cons]
    by_cases hxl : x.link = l
    · by_cases hq : q x.link = true
      · rw [if_pos hq, List.filter_cons, if_pos (by simp [hxl])]
        rw [List.length_cons, ih hnd2]
        rw [if_neg (by rw [hxl] at hx; simp [hx]), if_pos (by simp [hxl, hxl ▸ hq])]
      · rw [if_neg (by simp [hq]), ih hnd2]
        rw [if_neg (by rw [hxl] at hx; simp [hx]),
          if_neg (by rw [← hxl]; simp [hq])]
    · have hcond : (l ∈ List.map (fun i => i.link) (x :: rest) ∧ q l = true)
          ↔ (l ∈ List.map (fun i => i.link) rest ∧ q l = true) := by
        rw [List.map_cons, List.mem_cons]
        constructor
        · rintro ⟨h1 | h1, h2⟩
          · exact absurd h1.symm hxl
          · exact ⟨h1, h2⟩
        · rintro ⟨h1, h2⟩
          exact ⟨Or.inr h1, h2⟩
      by_cases hq : q x.link = true
      · rw [if_pos hq, List.filter_cons, if_neg (by simp [hxl]), ih hnd2]
        exact (if_congr hcond rfl rfl).symm
      · rw [if_neg (by simp [hq]), ih hnd2]
        exact (if_congr hcond rfl rfl).symm

/-- C2: a successful reconcile enqueues exactly one save request for every
item of the sanitized fresh document whose link is not among the previous
document's item links, and none for any other link: the number of requests
carrying link `l` is 1 when `l` is a fresh sanitized link absent from the
previous document, else 0. -/
theorem reconcile_diff (tpd : String → Option Time) (r : ReaperState) (db : DbState)
    (f : Feed) (ft et : Time) (fresh : Feed) (fh : FeedHolder)
    (hmem : mapLookup r.feeds f.feedLink = some fh) (l : String) :
    ((updateFeedAndSaveNewItemsToDb tpd r db f ft et (.ok fresh)).saved.filter
        (fun q => q.link == l)).length
      = if l ∈ (sanitizeFeedItems tpd fresh).items.map (fun i => i.link)
            ∧ ¬ l ∈ f.items.map (fun i => i.link)
        then 1 else 0 := by
  rw [updateFeed_ok_saved tpd r db f ft et fresh fh hmem]
  rw [List.filter_map, List.length_map]
  have hq := count_links_filter l
      (fun s => !((f.items.map (fun i => i.link)).contains s))
      (sanitizeFeedItems tpd fresh).items
      (sanitizeLoop_nodup tpd fresh.items [])
  have hcond : ((l ∈ (sanitizeFeedItems tpd fresh).items.map (fun i => i.link))
        ∧ (fun s => !((f.items.map (fun i => i.link)).contains s)) l = true)
      ↔ ((l ∈ (sanitizeFeedItems tpd fresh).items.map (fun i => i.link))
        ∧ ¬ l ∈ f.items.map (fun i => i.link)) := by
    constructor
    · rintro ⟨h1, h2⟩
      refine ⟨h1, ?_⟩
      intro hl
      rw [Bool.not_eq_true'] at h2
      rw [← List.elem_iff] at hl
      have h3 : (f.items.map (fun i => i.link)).contains l = true := hl
      rw [h3] at h2
      cases h2
    · rintro ⟨h1, h2⟩
      refine ⟨h1, ?_⟩
      simp only [Bool.not_eq_true']
      rcases hc : (f.items.map (fun i => i.link)).contains l with _ | _
      · exact hc
      · exact absurd (List.elem_iff.mp hc) h2
  rw [if_congr hcond rfl rfl] at hq
  exact hq


/-- C2 witness: previous items A and B, fresh items B and C: exactly one
request is emitted for C's link, none for B's (already present) or A's
(not in the fresh document). -/
theorem reconcile_diff_witness :
    mapLookup regX.feeds prevFeedX.feedLink
      = some { feed := prevFeedX, lastFetched := 0 }
    ∧ ((updateFeedAndSaveNewItemsToDb noParse regX dbX prevFeedX 10 11
          (.ok freshFeedX)).saved.filter
        (fun q => q.link == "https://example.com/c")).length = 1
    ∧ ((updateFeedAndSaveNewItemsToDb noParse regX dbX prevFeedX 10 11
          (.ok freshFeedX)).saved.filter
        (fun q => q.link == "https://example.com/b")).length = 0
    ∧ ((updateFeedAndSaveNewItemsToDb noParse regX dbX prevFeedX 10 11
          (.ok freshFeedX)).saved.filter
        (fun q => q.link == "https://example.com/a")).length = 0 := by
  refine ⟨by decide, ?_, ?_, ?_⟩
  · rw [reconcile_diff noParse regX dbX prevFeedX 10 11 freshFeedX
      { feed := prevFeedX, lastFetched := 0 } (by decide) "https://example.com/c"]
    rw [if_pos (by decide)]
  · rw [reconcile_diff noParse regX dbX prevFeedX 10 11 freshFeedX
      { feed := prevFeedX, lastFetched := 0 } (by decide) "https://example.com/b"]
    rw [if_neg (by decide)]
  · rw [reconcile_diff noParse regX dbX prevFeedX 10 11 freshFeedX
      { feed := prevFeedX, lastFetched := 0 } (by decide) "https://example.com/a"]
    rw [if_neg (by decide)]

/-- C3: when the parse fails, the reconcile records the error string in the
feed row, stamps the fetch start time in the feed row and the Registry entry,
keeps the previous document, and enqueues nothing; the fetch-time stamp in
storage happens regardless of the fetch outcome. -/
theorem reconcile_failure (tpd : String → Option Time) (r : ReaperState)
    (db : DbState) (f : Feed) (ft et : Time) (e : String) (fh : FeedHolder)
    (hmem : mapLookup r.feeds f.feedLink = some fh) :
    (updateFeedAndSaveNewItemsToDb tpd r db f ft et (.error e)).saved = []
    ∧ mapLookup (updateFeedAndSaveNewItemsToDb tpd r db f ft et
        (.error e)).reaper.feeds f.feedLink = some { fh with lastFetched := ft }
    ∧ (mapLookup (updateFeedAndSaveNewItemsToDb tpd r db f ft et
          (.error e)).reaper.feeds f.feedLink).map (fun h => h.feed)
        = (mapLookup r.feeds f.feedLink).map (fun h => h.feed)
    ∧ (updateFeedAndSaveNewItemsToDb tpd r db f ft et (.error e)).db.feedRows
        = db.feedRows.map (fun row =>
            if row.url == f.feedLink
            then { row with lastRefresh := ft, fetchError := e } else row)
    ∧ (updateFeedAndSaveNewItemsToDb tpd r db f ft et (.error e)).db.postRows
        = db.postRows
    ∧ ∀ result : Except String Feed,
        ∀ row ∈ (updateFeedAndSaveNewItemsToDb tpd r db f ft et result).db.feedRows,
          row.url = f.feedLink → row.lastRefresh = ft := by
  have herr := updateFeed_err tpd r db f ft et e fh hmem
  refine ⟨by rw [herr], ?_, ?_, ?_, ?_, ?_⟩
  · rw [herr]
    exact mapLookup_mapInsert_self r.feeds f.feedLink _
  · rw [herr]
    rw [mapLookup_mapInsert_self r.feeds f.feedLink _, hmem]
    rfl
  · rw [herr]
    simp only [handleFeedFetchFailure, SetFeedFetchError, UpdateFeedLastRefreshTime,
      List.map_map]
    apply List.map_congr_left
    intro row _
    by_cases hu : row.url == f.feedLink
    · simp only [Function.comp_apply, hu, if_pos]
    · simp only [Function.comp_apply, hu, Bool.false_eq_true, if_false]
  · rw [herr]
    rfl
  · intro result row hrow hurl
    have hgen : ∀ db2 : DbState, ∀ msg : String,
        (∀ rw2 ∈ (SetFeedFetchError (UpdateFeedLastRefreshTime db2 f.feedLink ft)
            f.feedLink msg).feedRows,
          rw2.url = f.feedLink → rw2.lastRefresh = ft) := by
      intro db2 msg rw2 hrw2 hurl2
      simp only [SetFeedFetchError, UpdateFeedLastRefreshTime, List.map_map,
        List.mem_map] at hrw2
      obtain ⟨row0, _, hrow0⟩ := hrw2
      by_cases hu : row0.url == f.feedLink
      · rw [← hrow0]
        simp only [Function.comp_apply, hu, if_pos]
      · exfalso
        rw [← hrow0] at hurl2
        simp only [Function.comp_apply, hu, Bool.false_eq_true, if_false] at hurl2
        exact absurd hurl2 (by simpa using hu)
    cases result with
    | error e2 =>
      rw [updateFeed_err tpd r db f ft et e2 fh hmem] at hrow
      exact hgen db e2 row hrow hurl
    | ok fresh =>
      rw [show (updateFeedAndSaveNewItemsToDb tpd r db f ft et (.ok fresh)).db
          = SetFeedFetchError (UpdateFeedLastRefreshTime db f.feedLink ft)
              f.feedLink "" from
        updateFeed_ok_db tpd r db f ft et fresh fh hmem] at hrow
      exact hgen db "" row hrow hurl

/-- C3 witness: `reconcile_failure` at the tracked feed of `regX` with error
string "boom". -/
theorem reconcile_failure_witness :
    mapLookup regX.feeds prevFeedX.feedLink
      = some { feed := prevFeedX, lastFetched := 0 }
    ∧ ((updateFeedAndSaveNewItemsToDb noParse regX dbX prevFeedX 10 11
          (.error "boom")).saved = []
      ∧ mapLookup (updateFeedAndSaveNewItemsToDb noParse regX dbX prevFeedX 10 11
          (.error "boom")).reaper.feeds prevFeedX.feedLink
          = some { feed := prevFeedX, lastFetched := 10 }) := by
  have h := reconcile_failure noParse regX dbX prevFeedX 10 11 "boom"
    { feed := prevFeedX, lastFetched := 0 } (by decide)
  exact ⟨by decide, h.1, h.2.1⟩

/-! ### Registry key/document coherence (C10) -/

theorem mapLookup_mem {α : Type} :
    ∀ (m : List (String × α)) (url : String) (v : α),
      mapLookup m url = some v → (url, v) ∈ m := by
  intro m
  induction m with
  | nil =>
    intro url v h
    exact absurd h (by simp [mapLookup])
  | cons e rest ih =>
    intro url v h
    obtain ⟨k, w⟩ := e
    rw [mapLookup] at h
    by_cases hk : k = url
    · rw [if_pos hk] at h
      injection h with h1
      subst hk
      subst h1
      exact List.mem_cons_self _ _
    · rw [if_neg hk] at h
      exact List.mem_cons_of_mem _ (ih url v h)

theorem mapInsert_forall {α : Type} (P : String × α → Prop) :
    ∀ (m : List (String × α)) (url : String) (v : α),
      (∀ e ∈ m, P e) → P (url, v) → ∀ e ∈ mapInsert m url v, P e := by
  intro m
  induction m with
  | nil =>
    intro url v _ hv e he
    rw [mapInsert, List.mem_singleton] at he
    subst he
    exact hv
  | cons e0 rest ih =>
    intro url v hm hv e he
    obtain ⟨k, w⟩ := e0
    rw [mapInsert] at he
    by_cases hk : k = url
    · rw [if_pos hk, List.mem_cons] at he
      rcases he with he | he
      · subst he; exact hv
      · exact hm e (List.mem_cons_of_mem _ he)
    · rw [if_neg hk, List.mem_cons] at he
      rcases he with he | he
      · subst he; exact hm (k, w) (List.mem_cons_self _ _)
      · exact ih url v (fun x hx => hm x (List.mem_cons_of_mem _ hx)) hv e he

theorem addFeedStub_inv (r : ReaperState) (now : Time) (url : String)
    (hr : RegistryInv r) : RegistryInv (AddFeedStub r now url) := by
  rw [AddFeedStub]
  by_cases h : HasFeed r url = true
  · rw [if_pos h]; exact hr
  · rw [if_neg h]
    exact mapInsert_forall _ r.feeds url _ hr rfl

theorem registryInv_updateEntry (rs : ReaperState) (url : String)
    (modify : FeedHolder → FeedHolder)
    (hmod : ∀ fh, (url, fh) ∈ rs.feeds → (modify fh).feed.feedLink = url)
    (hinv : RegistryInv rs) : RegistryInv (updateEntry rs url modify) := by
  cases hl : mapLookup rs.feeds url with
  | none =>
    rw [updateEntry, hl]
    exact hinv
  | some fh =>
    rw [updateEntry, hl]
    exact mapInsert_forall _ rs.feeds url _ hinv
      (hmod fh (mapLookup_mem rs.feeds url fh hl))

theorem installFeed_inv (ft et : Time) (r1 : ReaperState) (newF : Feed)
    (h1 : RegistryInv r1) : RegistryInv (installFeed ft et r1 newF) := by
  rw [installFeed]
  have hinv2 : RegistryInv (if HasFeed r1 newF.feedLink = true then r1
      else AddFeedStub r1 ft newF.feedLink) := by
    by_cases hh : HasFeed r1 newF.feedLink = true
    · rw [if_pos hh]; exact h1
    · rw [if_neg hh]
      exact addFeedStub_inv r1 ft newF.feedLink h1
  have hinv3 : RegistryInv (updateEntry
      (if HasFeed r1 newF.feedLink = true then r1
       else AddFeedStub r1 ft newF.feedLink)
      newF.feedLink (fun fh2 => { fh2 with feed := newF })) :=
    registryInv_updateEntry _ _ _ (fun fh2 _ => rfl) hinv2
  exact registryInv_updateEntry _ _ _ (fun fh3 hm => hinv3 _ hm) hinv3

/-- C10: every Registry mutation — the startup seeding, `AddFeedStub`, a
successful `Fetch`, and a reconcile with either outcome — preserves the
invariant that each entry's stored document carries the map key as its
source url. -/
theorem registry_key_inv (tpd : String → Option Time) :
    (∀ (urls : List String) (lastRefreshOf : String → Time),
      RegistryInv (seedFeeds urls lastRefreshOf))
    ∧ (∀ (r : ReaperState) (now : Time) (url : String),
        RegistryInv r → RegistryInv (AddFeedStub r now url))
    ∧ (∀ (r r2 : ReaperState) (url : String) (now : Time)
          (fetchResult : Except String Feed),
        RegistryInv r → Fetch tpd r url now fetchResult = .ok r2 → RegistryInv r2)
    ∧ (∀ (r : ReaperState) (db : DbState) (f : Feed) (ft et : Time)
          (res : Except String Feed),
        RegistryInv r →
        RegistryInv (updateFeedAndSaveNewItemsToDb tpd r db f ft et res).reaper) := by
  refine ⟨?_, addFeedStub_inv, ?_, ?_⟩
  · intro urls lastRefreshOf
    rw [seedFeeds]
    have hfold : ∀ (us : List String) (m : List (String × FeedHolder)),
        (∀ e ∈ m, e.2.feed.feedLink = e.1) →
        ∀ e ∈ us.foldl (fun m url => mapInsert m url
            { feed := stubFeed url, lastFetched := lastRefreshOf url }) m,
          e.2.feed.feedLink = e.1 := by
      intro us
      induction us with
      | nil => intro m hm; exact hm
      | cons u tail ih =>
        intro m hm
        rw [List.foldl_cons]
        exact ih _ (mapInsert_forall _ m u _ hm rfl)
    exact hfold urls [] (by intro e he; simp at he)
  · intro r r2 url now fetchResult hr hok
    cases fetchResult with
    | error e => exact absurd hok (by rw [Fetch]; simp)
    | ok feed0 =>
      rw [Fetch] at hok
      injection hok with h1
      rw [← h1]
      exact mapInsert_forall _ r.feeds url _ hr rfl
  · intro r db f ft et res hr
    cases hmem : mapLookup r.feeds f.feedLink with
    | none =>
      rw [updateFeed_untracked tpd r db f ft et res hmem]
      exact hr
    | some fh =>
      have hfh : fh.feed.feedLink = f.feedLink := hr _ (mapLookup_mem r.feeds _ _ hmem)
      have hr1 : RegistryInv
          { feeds := mapInsert r.feeds f.feedLink { fh with lastFetched := ft } } :=
        mapInsert_forall _ r.feeds f.feedLink _ hr hfh
      cases res with
      | error e =>
        rw [updateFeed_err tpd r db f ft et e fh hmem]
        exact hr1
      | ok fresh =>
        have hre : (updateFeedAndSaveNewItemsToDb tpd r db f ft et (.ok fresh)).reaper
            = installFeed ft et
              { feeds := mapInsert r.feeds f.feedLink { fh with lastFetched := ft } }
              { backfillFeedDate tpd (sanitizeFeedItems tpd fresh) with
                feedLink := f.feedLink } := by
          unfold updateFeedAndSaveNewItemsToDb
          rw [hmem]
        rw [hre]
        exact installFeed_inv _ _ _ _ hr1

/-- C10 witness: the preservation clauses of `registry_key_inv` applied to
the concrete Registry `regX` (adding a stub, a successful fetch install, and
both reconcile outcomes). -/
theorem registry_key_inv_witness :
    RegistryInv regX
    ∧ RegistryInv (AddFeedStub regX 5 "https://other.example/feed")
    ∧ RegistryInv ((updateFeedAndSaveNewItemsToDb noParse regX dbX prevFeedX
        10 11 (.error "boom")).reaper)
    ∧ RegistryInv ((updateFeedAndSaveNewItemsToDb noParse regX dbX prevFeedX
        10 11 (.ok freshFeedX)).reaper) :=
  ⟨by decide,
   (registry_key_inv noParse).2.1 regX 5 "https://other.example/feed" (by decide),
   (registry_key_inv noParse).2.2.2 regX dbX prevFeedX 10 11 (.error "boom")
     (by decide),
   (registry_key_inv noParse).2.2.2 regX dbX prevFeedX 10 11 (.ok freshFeedX)
     (by decide)⟩

end Mire
